import Mathlib

/-!
Verification of `internal/utils/encrypt.py` from cam-boltnote/go-ignite.

The script reads 32 bytes from the OS secure entropy source (`os.urandom`),
base64-encodes them (`base64.b64encode`) and prints the length of the raw
key and the encoded key.  Bytes are modelled as natural numbers below 256;
the entropy source is modelled as an explicit stream of values.
-/

/-- Alphabet of standard base64 (RFC 4648), as used by `base64.b64encode`. -/
def b64alphabet : List Char :=
  "ABCDEFGHIJKLMNOPQRSTUVWXYZabcdefghijklmnopqrstuvwxyz0123456789+/".toList

/-- Character of the standard base64 alphabet at position `n` (for `n < 64`). -/
def b64char (n : Nat) : Char := b64alphabet.getD n '?'

/-- Standard base64 encoding with `=` padding, as computed by Python's
`base64.b64encode` (which inserts no newlines): the input bytes are taken in
groups of three, each group yielding four alphabet characters; a trailing
group of one byte yields two characters plus `==`, a trailing group of two
bytes yields three characters plus `=`. -/
def b64encode : List Nat → List Char
  | b1 :: b2 :: b3 :: rest =>
      b64char (b1 / 4) :: b64char ((b1 % 4) * 16 + b2 / 16) ::
        b64char ((b2 % 16) * 4 + b3 / 64) :: b64char (b3 % 64) :: b64encode rest
  | [b1, b2] =>
      [b64char (b1 / 4), b64char ((b1 % 4) * 16 + b2 / 16), b64char ((b2 % 16) * 4), '=']
  | [b1] =>
      [b64char (b1 / 4), b64char ((b1 % 4) * 16), '=', '=']
  | [] => []

/-- Position of a character in the base64 alphabet (64 when absent). -/
def b64index (c : Char) : Nat := b64alphabet.findIdx (fun x => x = c)

/-- Modelled from the spec: `decode_base64`, standard base64 decoding
(RFC 4648), the inverse direction used by the spec's round-trip law.  The
decoder itself is not part of the script, which only encodes. -/
def b64decode : List Char → List Nat
  | c1 :: c2 :: c3 :: c4 :: rest =>
      let i1 := b64index c1
      let i2 := b64index c2
      if c3 = '=' then
        [i1 * 4 + i2 / 16]
      else
        let i3 := b64index c3
        if c4 = '=' then
          [i1 * 4 + i2 / 16, (i2 % 16) * 16 + i3 / 4]
        else
          (i1 * 4 + i2 / 16) :: ((i2 % 16) * 16 + i3 / 4) ::
            ((i3 % 4) * 64 + b64index c4) :: b64decode rest
  | _ => []

/-- Valid byte sequence: every element is an 8-bit value. -/
def ValidBytes (bs : List Nat) : Prop := ∀ b ∈ bs, b < 256

instance : DecidablePred ValidBytes := fun bs =>
  inferInstanceAs (Decidable (∀ b ∈ bs, b < 256))

/-- Operating environment of the script: it offers a cryptographically
secure randomness source (`os.urandom`) and, in principle, a general-purpose
pseudo-random generator (Python's `random` module) that the script never
imports.  Each source is a stream of values; a read at index `i` yields one
byte, `src i % 256`. -/
structure Env where
  urandom_src : Nat → Nat
  prng_src : Nat → Nat

/-- Reading `n` bytes from an entropy stream `e`: `os.urandom(n)`. -/
def urandom (e : Nat → Nat) (n : Nat) : List Nat :=
  (List.range n).map (fun i => e i % 256)

/-- Line `raw_key = os.urandom(32)` of the script. -/
def raw_key (env : Env) : List Nat := urandom env.urandom_src 32

/-- Line `encoded_key = base64.b64encode(raw_key)` of the script, with the
encoded bytes viewed as characters. -/
def encoded_key (env : Env) : List Char := b64encode (raw_key env)

/-- Error taxonomy of the spec's key provisioning helper. -/
inductive KeyError where
  | InvalidArgument
  | EntropyUnavailable
deriving DecidableEq, Repr

/-- Reading `n` bytes from a fallible entropy source starting at index
`start`; `none` models an unreadable secure random source. -/
def readBytes (src : Nat → Option Nat) (start n : Nat) : Option (List Nat) :=
  match n with
  | 0 => some []
  | m + 1 =>
      match src start with
      | none => none
      | some b =>
          match readBytes src (start + 1) m with
          | none => none
          | some bs => some (b % 256 :: bs)

/-- Modelled from the spec: `generate_key(size)`, the secret key provisioning
helper (the script inlines it as `os.urandom(32)`).  It fails with
`InvalidArgument` when `size <= 0`, fails with `EntropyUnavailable` when the
secure source cannot be read, and otherwise returns exactly `size` bytes
drawn from the secure source. -/
def generate_key (src : Nat → Option Nat) (size : Int) : Except KeyError (List Nat) :=
  if size ≤ 0 then
    .error .InvalidArgument
  else
    match readBytes src 0 size.toNat with
    | none => .error .EntropyUnavailable
    | some bs => .ok bs

/-- Number of `=` padding characters at the end of an encoded string. -/
def trailingPadCount (s : List Char) : Nat :=
  (s.reverse.takeWhile (fun c => c = '=')).length

/-- Decoding a byte sequence as text, as in `encoded_key.decode()`: ASCII
bytes (below 128) decode to themselves; a non-ASCII byte may make UTF-8
decoding fail, modelled as `none`. -/
def bytesDecode (l : List Nat) : Option (List Char) :=
  if l.all (fun b => b < 128) then some (l.map Char.ofNat) else none

/-- Character safe for a plain-text configuration file: a member of the
base64 alphabet or the padding character, not a newline, not a control or
delete character. -/
def safeChar (c : Char) : Bool :=
  (b64alphabet.contains c || c == '=') && c != '\n' &&
    decide (32 ≤ c.toNat) && decide (c.toNat < 127)

/-- Example of a total entropy source, used to exercise the theorems. -/
def srcA : Nat → Option Nat := fun i => some (i + 5)

/-- Example of an entropy source that fails at index 2. -/
def srcB : Nat → Option Nat := fun i => if i = 2 then none else some i

/-- Example environment. -/
def envB : Env := ⟨fun i => i, fun _ => 17⟩

/-- Example environment with the same secure source as `envB` but another
general-purpose generator. -/
def envC : Env := ⟨fun i => i, fun _ => 4⟩

/-- Example environment whose secure source differs from that of `envB`. -/
def envD : Env := ⟨fun i => i + 1, fun _ => 17⟩

/-! Helper lemmas -/

theorem b64index_b64char : ∀ n < 64, b64index (b64char n) = n := by decide

theorem b64char_ne_pad : ∀ n < 64, b64char n ≠ '=' := by decide

theorem b64char_mem : ∀ n < 64, b64char n ∈ b64alphabet := by decide

theorem validBytes_tail (b : Nat) (bs : List Nat) (h : ValidBytes (b :: bs)) :
    ValidBytes bs := fun x hx => h x (List.mem_cons_of_mem b hx)

theorem b64_roundtrip_aux : ∀ bs : List Nat, ValidBytes bs →
    b64decode (b64encode bs) = bs
  | [], _ => rfl
  | [b1], h => by
      have hb1 : b1 < 256 := h b1 (by simp)
      have e1 := b64index_b64char (b1 / 4) (by omega)
      have e2 := b64index_b64char ((b1 % 4) * 16) (by omega)
      simp only [b64encode, b64decode, if_pos rfl, e1, e2]
      have r1 : b1 / 4 * 4 + (b1 % 4) * 16 / 16 = b1 := by omega
      rw [r1]
      simp
  | [b1, b2], h => by
      have hb1 : b1 < 256 := h b1 (by simp)
      have hb2 : b2 < 256 := h b2 (by simp)
      have e1 := b64index_b64char (b1 / 4) (by omega)
      have e2 := b64index_b64char ((b1 % 4) * 16 + b2 / 16) (by omega)
      have e3 := b64index_b64char ((b2 % 16) * 4) (by omega)
      have n3 := b64char_ne_pad ((b2 % 16) * 4) (by omega)
      simp only [b64encode, b64decode, if_neg n3, if_pos rfl, e1, e2, e3]
      have r1 : b1 / 4 * 4 + ((b1 % 4) * 16 + b2 / 16) / 16 = b1 := by omega
      have r2 : ((b1 % 4) * 16 + b2 / 16) % 16 * 16 + (b2 % 16) * 4 / 4 = b2 := by omega
      rw [r1, r2]
      simp
  | b1 :: b2 :: b3 :: rest, h => by
      have hb1 : b1 < 256 := h b1 (by simp)
      have hb2 : b2 < 256 := h b2 (by simp)
      have hb3 : b3 < 256 := h b3 (by simp)
      have ih := b64_roundtrip_aux rest
        (validBytes_tail b3 rest (validBytes_tail b2 _ (validBytes_tail b1 _ h)))
      have e1 := b64index_b64char (b1 / 4) (by omega)
      have e2 := b64index_b64char ((b1 % 4) * 16 + b2 / 16) (by omega)
      have e3 := b64index_b64char ((b2 % 16) * 4 + b3 / 64) (by omega)
      have e4 := b64index_b64char (b3 % 64) (by omega)
      have n3 := b64char_ne_pad ((b2 % 16) * 4 + b3 / 64) (by omega)
      have n4 := b64char_ne_pad (b3 % 64) (by omega)
      simp only [b64encode, b64decode, if_neg n3, if_neg n4, e1, e2, e3, e4, ih]
      have r1 : b1 / 4 * 4 + ((b1 % 4) * 16 + b2 / 16) / 16 = b1 := by omega
      have r2 : ((b1 % 4) * 16 + b2 / 16) % 16 * 16 + ((b2 % 16) * 4 + b3 / 64) / 4 = b2 := by
        omega
      have r3 : ((b2 % 16) * 4 + b3 / 64) % 4 * 64 + b3 % 64 = b3 := by omega
      rw [r1, r2, r3]

theorem b64encode_length : ∀ bs : List Nat,
    (b64encode bs).length = 4 * ((bs.length + 2) / 3)
  | [] => rfl
  | [b1] => by simp [b64encode]
  | [b1, b2] => by simp [b64encode]
  | b1 :: b2 :: b3 :: rest => by
      have ih := b64encode_length rest
      simp only [b64encode, List.length_cons]
      omega

theorem b64encode_head_ne : ∀ (b : Nat) (bs : List Nat), b < 256 →
    ∃ c ∈ b64encode (b :: bs), c ≠ '='
  | b, [], hb =>
      ⟨b64char (b / 4), by simp [b64encode], b64char_ne_pad (b / 4) (by omega)⟩
  | b, [_], hb =>
      ⟨b64char (b / 4), by simp [b64encode], b64char_ne_pad (b / 4) (by omega)⟩
  | b, _ :: _ :: _, hb =>
      ⟨b64char (b / 4), by simp [b64encode], b64char_ne_pad (b / 4) (by omega)⟩

theorem takeWhile_append_stop (p : Char → Bool) :
    ∀ xs ys : List Char, (∃ x ∈ xs, p x = false) →
      (xs ++ ys).takeWhile p = xs.takeWhile p
  | [], _, h => by simp at h
  | x :: xs, ys, h => by
      rcases h with ⟨w, hw, hpw⟩
      by_cases hx : p x
      · have hwxs : w ∈ xs := by
          rcases List.mem_cons.mp hw with h1 | h1
          · rw [h1] at hpw; rw [hpw] at hx; exact absurd hx (by simp)
          · exact h1
        simp only [List.cons_append, List.takeWhile_cons, hx]
        rw [takeWhile_append_stop p xs ys ⟨w, hwxs, hpw⟩]
      · simp only [List.cons_append, List.takeWhile_cons]
        rw [Bool.not_eq_true] at hx
        simp [hx]

theorem trailingPadCount_le_two : ∀ bs : List Nat, ValidBytes bs →
    trailingPadCount (b64encode bs) ≤ 2
  | [], _ => by simp [b64encode, trailingPadCount]
  | [b1], h => by
      have hb1 : b1 < 256 := h b1 (by simp)
      have n2 := b64char_ne_pad ((b1 % 4) * 16) (by omega)
      simp [b64encode, trailingPadCount, List.takeWhile_cons, n2]
  | [b1, b2], h => by
      have hb2 : b2 < 256 := h b2 (by simp)
      have n3 := b64char_ne_pad ((b2 % 16) * 4) (by omega)
      simp [b64encode, trailingPadCount, List.takeWhile_cons, n3]
  | b1 :: b2 :: b3 :: rest, h => by
      have hb3 : b3 < 256 := h b3 (by simp)
      have n4 := b64char_ne_pad (b3 % 64) (by omega)
      have ih := trailingPadCount_le_two rest
        (validBytes_tail b3 rest (validBytes_tail b2 _ (validBytes_tail b1 _ h)))
      cases rest with
      | nil => simp [b64encode, trailingPadCount, List.takeWhile_cons, n4]
      | cons r rs =>
          obtain ⟨c, hc, hcne⟩ := b64encode_head_ne r rs (h r (by simp))
          have hpc : (fun c => decide (c = '=')) c = false := by simp [hcne]
          unfold trailingPadCount
          have hrev : (b64encode (b1 :: b2 :: b3 :: r :: rs)).reverse
              = (b64encode (r :: rs)).reverse ++
                [b64char (b3 % 64), b64char ((b2 % 16) * 4 + b3 / 64),
                 b64char ((b1 % 4) * 16 + b2 / 16), b64char (b1 / 4)] := by
            simp [b64encode]
          rw [hrev, takeWhile_append_stop _ _ _ ⟨c, List.mem_reverse.mpr hc, hpc⟩]
          exact ih

theorem b64encode_mem : ∀ bs : List Nat, ValidBytes bs →
    ∀ c ∈ b64encode bs, c ∈ b64alphabet ∨ c = '='
  | [], _ => by simp [b64encode]
  | [b1], h => by
      have hb1 : b1 < 256 := h b1 (by simp)
      intro c hc
      simp only [b64encode, List.mem_cons, List.mem_singleton, List.not_mem_nil,
        or_false] at hc
      rcases hc with rfl | rfl | rfl | rfl
      · exact Or.inl (b64char_mem _ (by omega))
      · exact Or.inl (b64char_mem _ (by omega))
      · exact Or.inr rfl
      · exact Or.inr rfl
  | [b1, b2], h => by
      have hb1 : b1 < 256 := h b1 (by simp)
      have hb2 : b2 < 256 := h b2 (by simp)
      intro c hc
      simp only [b64encode, List.mem_cons, List.mem_singleton, List.not_mem_nil,
        or_false] at hc
      rcases hc with rfl | rfl | rfl | rfl
      · exact Or.inl (b64char_mem _ (by omega))
      · exact Or.inl (b64char_mem _ (by omega))
      · exact Or.inl (b64char_mem _ (by omega))
      · exact Or.inr rfl
  | b1 :: b2 :: b3 :: rest, h => by
      have hb1 : b1 < 256 := h b1 (by simp)
      have hb2 : b2 < 256 := h b2 (by simp)
      have hb3 : b3 < 256 := h b3 (by simp)
      have ih := b64encode_mem rest
        (validBytes_tail b3 rest (validBytes_tail b2 _ (validBytes_tail b1 _ h)))
      intro c hc
      simp only [b64encode, List.mem_cons] at hc
      rcases hc with rfl | rfl | rfl | rfl | hmem
      · exact Or.inl (b64char_mem _ (by omega))
      · exact Or.inl (b64char_mem _ (by omega))
      · exact Or.inl (b64char_mem _ (by omega))
      · exact Or.inl (b64char_mem _ (by omega))
      · exact ih c hmem

theorem readBytes_length (src : Nat → Option Nat) :
    ∀ (n start : Nat) (bs : List Nat), readBytes src start n = some bs →
      bs.length = n := by
  intro n
  induction n with
  | zero =>
      intro start bs h
      simp only [readBytes, Option.some.injEq] at h
      simp [← h]
  | succ m ih =>
      intro start bs h
      simp only [readBytes] at h
      cases hs : src start with
      | none => simp [hs] at h
      | some b =>
          simp only [hs] at h
          cases hr : readBytes src (start + 1) m with
          | none => simp [hr] at h
          | some tl =>
              simp only [hr, Option.some.injEq] at h
              have htl := ih (start + 1) tl hr
              simp [← h, htl]

theorem readBytes_total (src : Nat → Option Nat) (hsrc : ∀ i, (src i).isSome) :
    ∀ (n start : Nat), ∃ bs, readBytes src start n = some bs := by
  intro n
  induction n with
  | zero => intro start; exact ⟨[], rfl⟩
  | succ m ih =>
      intro start
      obtain ⟨tl, htl⟩ := ih (start + 1)
      obtain ⟨b, hb⟩ := Option.isSome_iff_exists.mp (hsrc start)
      exact ⟨b % 256 :: tl, by simp [readBytes, hb, htl]⟩

theorem readBytes_none (src : Nat → Option Nat) :
    ∀ (n start : Nat), (∃ j < n, src (start + j) = none) →
      readBytes src start n = none := by
  intro n
  induction n with
  | zero =>
      rintro start ⟨j, hj, _⟩
      exact absurd hj (by omega)
  | succ m ih =>
      rintro start ⟨j, hj, hnone⟩
      cases hs : src start with
      | none => simp [readBytes, hs]
      | some b =>
          have hj0 : j ≠ 0 := by
            rintro rfl
            rw [Nat.add_zero] at hnone
            rw [hnone] at hs
            cases hs
          obtain ⟨k, rfl⟩ : ∃ k, j = k + 1 := ⟨j - 1, by omega⟩
          have hrec : readBytes src (start + 1) m = none := by
            refine ih (start + 1) ⟨k, by omega, ?_⟩
            rw [show start + 1 + k = start + (k + 1) from by omega]
            exact hnone
          simp [readBytes, hs, hrec]

theorem urandom_length (e : Nat → Nat) (n : Nat) : (urandom e n).length = n := by
  simp [urandom]

theorem urandom_getD (e : Nat → Nat) (n i : Nat) (h : i < n) :
    (urandom e n).getD i 0 = e i % 256 := by
  simp [urandom, List.getD_eq_getElem?_getD, List.getElem?_map, List.getElem?_range, h]

theorem b64alphabet_safe : ∀ c ∈ b64alphabet, safeChar c = true := by decide

theorem b64alphabet_ascii : ∀ c ∈ b64alphabet, Char.ofNat c.toNat = c ∧ c.toNat < 128 := by
  decide

/-! Claim theorems -/

/-- C1: for every byte sequence `b` of length at least one, decoding the
output of `encode_for_storage(b)` with standard base64 decoding reproduces
exactly the original byte sequence `b` (round-trip law). -/
theorem spec_C1_roundtrip (bs : List Nat) (hv : ValidBytes bs)
    (_hlen : 1 ≤ bs.length) : b64decode (b64encode bs) = bs :=
  b64_roundtrip_aux bs hv

theorem spec_C1_roundtrip_witness :
    b64decode (b64encode [0, 255, 7]) = [0, 255, 7] :=
  spec_C1_roundtrip [0, 255, 7] (by decide) (by decide)

/-- C2: for every size at least one, a key returned by `generate_key(size)`
has length exactly `size`; in particular the key produced by the program,
`raw_key = os.urandom(32)`, is always exactly 32 bytes long. -/
theorem spec_C2_key_length (src : Nat → Option Nat) (size : Int) (bs : List Nat)
    (hsize : 1 ≤ size) (hok : generate_key src size = .ok bs) (env : Env) :
    bs.length = size.toNat ∧ (raw_key env).length = 32 := by
  constructor
  · have hns : ¬ size ≤ 0 := by omega
    simp only [generate_key, if_neg hns] at hok
    cases hr : readBytes src 0 size.toNat with
    | none => rw [hr] at hok; cases hok
    | some l =>
        rw [hr] at hok
        simp only [Except.ok.injEq] at hok
        exact readBytes_length src size.toNat 0 bs (hok ▸ hr)
  · simp [raw_key, urandom_length]

theorem spec_C2_key_length_witness :
    ([5, 6, 7] : List Nat).length = (3 : Int).toNat ∧ (raw_key envB).length = 32 :=
  spec_C2_key_length srcA 3 [5, 6, 7] (by decide) (by rfl) envB

/-- C3: for every 32-byte key, the output of `encode_for_storage` is exactly
44 characters long including padding, and it ends in no more than two `=`
padding characters. -/
theorem spec_C3_encoded_32 (key : List Nat) (hv : ValidBytes key)
    (hlen : key.length = 32) :
    (b64encode key).length = 44 ∧ trailingPadCount (b64encode key) ≤ 2 := by
  refine ⟨?_, trailingPadCount_le_two key hv⟩
  rw [b64encode_length, hlen]

theorem spec_C3_encoded_32_witness :
    (b64encode (List.range 32)).length = 44 ∧
      trailingPadCount (b64encode (List.range 32)) ≤ 2 :=
  spec_C3_encoded_32 (List.range 32) (by decide) (by decide)

/-- C4: calling `generate_key` with size zero or negative fails with an
`InvalidArgument` error, so no key is produced in that case. -/
theorem spec_C4_invalid_size (src : Nat → Option Nat) (size : Int)
    (h : size ≤ 0) : generate_key src size = .error .InvalidArgument := by
  simp [generate_key, h]

theorem spec_C4_invalid_size_witness :
    generate_key srcA 0 = .error .InvalidArgument ∧
      generate_key srcA (-5) = .error .InvalidArgument :=
  ⟨spec_C4_invalid_size srcA 0 (by decide), spec_C4_invalid_size srcA (-5) (by decide)⟩

/-- C5: if the secure random source cannot be read at some position of the
requested key, `generate_key` fails with an `EntropyUnavailable` error, so no
partial key is returned and nothing falls back to another source. -/
theorem spec_C5_entropy_unavailable (src : Nat → Option Nat) (size : Int)
    (i : Nat) (hsize : 1 ≤ size) (hi : i < size.toNat) (hnone : src i = none) :
    generate_key src size = .error .EntropyUnavailable := by
  have hns : ¬ size ≤ 0 := by omega
  have hr : readBytes src 0 size.toNat = none :=
    readBytes_none src size.toNat 0 ⟨i, hi, by rwa [Nat.zero_add]⟩
  simp [generate_key, hns, hr]

theorem spec_C5_entropy_unavailable_witness :
    generate_key srcB 5 = .error .EntropyUnavailable :=
  spec_C5_entropy_unavailable srcB 5 2 (by decide) (by decide) (by rfl)

/-- C6: the key bytes are drawn exclusively from the environment's secure
randomness source: the raw and encoded keys of the program are identical in
any two environments that agree on the secure source, whatever their
general-purpose pseudo-random generators do. -/
theorem spec_C6_secure_source_only (e1 e2 : Env)
    (h : e1.urandom_src = e2.urandom_src) :
    raw_key e1 = raw_key e2 ∧ encoded_key e1 = encoded_key e2 := by
  have hk : raw_key e1 = raw_key e2 := by simp [raw_key, urandom, h]
  exact ⟨hk, by simp [encoded_key, hk]⟩

theorem spec_C6_secure_source_only_witness :
    raw_key envB = raw_key envC ∧ encoded_key envB = encoded_key envC :=
  spec_C6_secure_source_only envB envC rfl

/-- C7: for every input byte sequence, every character produced by
`encode_for_storage` is from the standard base64 alphabet or is the `=`
padding character, is not a newline and is not a control or delete
character. -/
theorem spec_C7_safe_output (bs : List Nat) (hv : ValidBytes bs) :
    (b64encode bs).all safeChar = true := by
  rw [List.all_eq_true]
  intro c hc
  rcases b64encode_mem bs hv c hc with hmem | rfl
  · exact b64alphabet_safe c hmem
  · decide

theorem spec_C7_safe_output_witness :
    (b64encode [0, 255, 10]).all safeChar = true :=
  spec_C7_safe_output [0, 255, 10] (by decide)

/-- C8: two runs of the program that read distinct byte values from the
secure entropy source at some position below 32 produce unequal keys. -/
theorem spec_C8_distinct_keys (e1 e2 : Env) (i : Nat) (hi : i < 32)
    (hne : e1.urandom_src i % 256 ≠ e2.urandom_src i % 256) :
    raw_key e1 ≠ raw_key e2 := by
  intro heq
  have h1 := urandom_getD e1.urandom_src 32 i hi
  have h2 := urandom_getD e2.urandom_src 32 i hi
  have h3 : (urandom e1.urandom_src 32).getD i 0
      = (urandom e2.urandom_src 32).getD i 0 := by
    rw [show urandom e1.urandom_src 32 = raw_key e1 from rfl,
      show urandom e2.urandom_src 32 = raw_key e2 from rfl, heq]
  rw [h1, h2] at h3
  exact hne h3

theorem spec_C8_distinct_keys_witness : raw_key envB ≠ raw_key envD :=
  spec_C8_distinct_keys envB envD 0 (by decide) (by decide)

/-- C9: for every input byte sequence of length at least one, the base64
encoding produced by `encode_for_storage` has exactly `4 * ceil(n / 3)`
characters, where `n` is the input length. -/
theorem spec_C9_length_formula (bs : List Nat) (_hlen : 1 ≤ bs.length) :
    (b64encode bs).length = 4 * ((bs.length + 2) / 3) :=
  b64encode_length bs

theorem spec_C9_length_formula_witness :
    (b64encode [1, 2, 3, 4]).length = 4 * (([1, 2, 3, 4] : List Nat).length + 2) / 3 := by
  have h := spec_C9_length_formula [1, 2, 3, 4] (by decide)
  simpa using h

/-- C10: for every input byte sequence, the base64 encoder's output consists
exclusively of ASCII bytes, so decoding it as text (`encoded_key.decode()`)
always succeeds and returns the encoded characters unchanged. -/
theorem spec_C10_ascii_decode (bs : List Nat) (hv : ValidBytes bs) :
    bytesDecode ((b64encode bs).map Char.toNat) = some (b64encode bs) := by
  have hall : ∀ c ∈ b64encode bs, Char.ofNat c.toNat = c ∧ c.toNat < 128 := by
    intro c hc
    rcases b64encode_mem bs hv c hc with hmem | rfl
    · exact b64alphabet_ascii c hmem
    · exact ⟨by decide, by decide⟩
  have hcond : ((b64encode bs).map Char.toNat).all (fun b => b < 128) = true := by
    rw [List.all_eq_true]
    intro b hb
    rcases List.mem_map.mp hb with ⟨c, hc, rfl⟩
    exact decide_eq_true (hall c hc).2
  unfold bytesDecode
  rw [if_pos (by rw [hcond])]
  rw [List.map_map]
  have hmap : (b64encode bs).map (Char.ofNat ∘ Char.toNat) = (b64encode bs).map id := by
    apply List.map_congr_left
    intro c hc
    exact (hall c hc).1
  rw [hmap, List.map_id]

theorem spec_C10_ascii_decode_witness :
    bytesDecode ((b64encode [200, 201]).map Char.toNat) = some (b64encode [200, 201]) :=
  spec_C10_ascii_decode [200, 201] (by decide)
